import Mathlib

/-!
Shallow embedding of the server-side element tree of `src/nicegui/element.py`:
the attribute mini-language parsers, the `classes` / `style` / `props` merge
operations, event-listener aggregation for serialization, visibility toggling,
and post-order subtree collection for update propagation.

Python dictionaries are embedded as insertion-ordered association lists with
unique keys (`PyDict`); Python strings are Lean `String`s and the relevant
`str` methods (`split`, `strip`) are embedded below.
-/

namespace NiceGui

/-- Characters Python `str.strip()` and `str.split()` treat as whitespace. -/
def pyIsSpace (c : Char) : Bool :=
  c = ' ' || c = '\t' || c = '\n' || c = '\r' || c = Char.ofNat 11 || c = Char.ofNat 12

/-- Remove leading and trailing characters satisfying `p` from a character list. -/
def stripCharsList (p : Char → Bool) (l : List Char) : List Char :=
  ((l.dropWhile p).reverse.dropWhile p).reverse

/-- Python `text.strip(chars)`: drop characters satisfying `p` from both ends. -/
def pyStrip (p : Char → Bool) (s : String) : String :=
  String.mk (stripCharsList p s.toList)

/-- Python `text.split(sep)` for a single-character separator: keeps empty parts. -/
def pySplitChar (sep : Char) (s : String) : List String :=
  (s.toList.splitOnP (fun c => c = sep)).map String.mk

/-- Python `text.split()` with no argument: split on whitespace runs, dropping empties. -/
def pySplitWs (s : String) : List String :=
  ((s.toList.splitOnP pyIsSpace).filter (fun l => l ≠ [])).map String.mk

/-- Insertion-ordered association list with the semantics of a Python `dict`. -/
abbrev PyDict (α : Type) := List (String × α)

/-- Python `d[k]` lookup as an `Option` (also `d.get(k)`): the value of the first
entry with the given key. -/
def dictLookup {α : Type} : PyDict α → String → Option α
  | [], _ => none
  | p :: d, k => if p.1 = k then some p.2 else dictLookup d k

/-- Python `k in d`. -/
def dictHasKey {α : Type} (d : PyDict α) (k : String) : Bool :=
  (dictLookup d k).isSome

/-- Python `d[k] = v`: overwrite in place if `k` is present, else append. -/
def dictInsert {α : Type} (d : PyDict α) (k : String) (v : α) : PyDict α :=
  if dictHasKey d k then d.map (fun p => if p.1 = k then (k, v) else p)
  else d ++ [(k, v)]

/-- Python `del d[k]` (the key is assumed present; absent keys are handled by callers). -/
def dictErase {α : Type} (d : PyDict α) (k : String) : PyDict α :=
  d.filter (fun p => p.1 ≠ k)

/-- Sequential deletion `for k in ks: del d[k]` where absent keys are no-ops
(deleting an absent key leaves the dict unchanged in this form). -/
def eraseKeys {α : Type} (d : PyDict α) (ks : List String) : PyDict α :=
  ks.foldl dictErase d

/-- Python `dict(pairs)`: later pairs overwrite earlier ones, first position wins. -/
def dictOfPairs {α : Type} (ps : List (String × α)) : PyDict α :=
  ps.foldl (fun d p => dictInsert d p.1 p.2) []

/-- Python `d.update(other)` where `other` is given by its pair list. -/
def dictUpdate {α : Type} (d : PyDict α) (ps : List (String × α)) : PyDict α :=
  ps.foldl (fun d p => dictInsert d p.1 p.2) d

/-- Keys of a dict in insertion order (Python iteration order). -/
def dictKeys {α : Type} (d : PyDict α) : List String :=
  d.map (fun p => p.1)

/-- Python `d1 == d2` on dicts: same keys with the same values, order-insensitive. -/
def pyDictEq {α : Type} [DecidableEq α] (d1 d2 : PyDict α) : Bool :=
  d1.all (fun p => dictLookup d2 p.1 = some p.2) && d2.all (fun p => dictLookup d1 p.1 = some p.2)

/-- One `key:value` declaration of the style mini-language: split on `:` and require
exactly two words, each stripped of surrounding whitespace (a `dict` constructor
argument of any other length raises in the source). -/
def parseStylePart (part : String) : Option (String × String) :=
  match (pySplitChar ':' part).map (pyStrip pyIsSpace) with
  | [k, v] => some (k, v)
  | _ => none

/-- The `parse_style` helper of `Element.style`: strip `;` and spaces from both ends,
split on `;`, parse each declaration, and build a dict; `none` models the
`ValueError` raised on a malformed declaration. An empty string yields the empty
dict (`if text else ...` in the source). -/
def parse_style (text : String) : Option (PyDict String) :=
  if text = "" then some []
  else ((pySplitChar ';' (pyStrip (fun c => c = ';' || c = ' ') text)).mapM parseStylePart).map dictOfPairs

/-- Lift `parse_style` to the `Optional[str]` arguments of `Element.style`. -/
def parseStyleOpt (text : Option String) : Option (PyDict String) :=
  match text with
  | none => some []
  | some t => parse_style t

/-- Errors `Element.style` can raise: a `ValueError` from `parse_style` or a
`KeyError` from deleting an absent key. -/
inductive StyleErr where
  | parseErr : StyleErr
  | keyErr : String → StyleErr
deriving DecidableEq

/-- Result of a call to `Element.style`: the element's style mapping after the call
(including mutations applied before an exception), the exception if one was
raised, and whether `update()` was invoked. -/
structure StyleOutcome where
  style : PyDict String
  err : Option StyleErr
  updated : Bool
deriving DecidableEq

/-- The deletion loop `for key in parse_style(remove): del style_dict[key]`:
delete keys in order; on the first absent key stop with that key (the `KeyError`),
returning the partially mutated dict. -/
def delKeys {α : Type} (d : PyDict α) : List String → PyDict α × Option String
  | [] => (d, none)
  | k :: ks => if dictHasKey d k then delKeys (dictErase d k) ks else (d, some k)

/-- `Element.style(add, remove, replace)` acting on the element's live style dict.
When `replace` is `none` the working dict `style_dict` is the same object as
`self._style`, so deletions and overlays mutate the live mapping in place and the
final `self._style != style_dict` comparison compares the object with itself. -/
def styleFn (live : PyDict String) (add remove replace : Option String) : StyleOutcome :=
  match parseStyleOpt remove with
  | none => ⟨live, some StyleErr.parseErr, false⟩
  | some removeDict =>
    let aliased := replace.isNone
    let base := if aliased then live else []
    match delKeys base (dictKeys removeDict) with
    | (d, some k) => ⟨if aliased then d else live, some (StyleErr.keyErr k), false⟩
    | (d, none) =>
      match parseStyleOpt add with
      | none => ⟨if aliased then d else live, some StyleErr.parseErr, false⟩
      | some addDict =>
        let d2 := dictUpdate d addDict
        match parseStyleOpt replace with
        | none => ⟨if aliased then d2 else live, some StyleErr.parseErr, false⟩
        | some replaceDict =>
          let d3 := dictUpdate d2 replaceDict
          let liveNow := if aliased then d3 else live
          if pyDictEq liveNow d3 then ⟨liveNow, none, false⟩
          else ⟨d3, none, true⟩

/-- Order-preserving deduplication, `list(dict.fromkeys(class_list))` in the source. -/
def dedupFirst (l : List String) : List String :=
  l.foldl (fun acc c => if c ∈ acc then acc else acc ++ [c]) []

/-- `Element.classes(add, remove, replace)` acting on the element's live class list:
returns the new class list and whether `update()` was invoked. -/
def classesFn (live : List String) (add remove replace : Option String) : List String × Bool :=
  let classList := if replace.isNone then live else []
  let classList := classList.filter (fun c => c ∉ pySplitWs (remove.getD ""))
  let classList := classList ++ pySplitWs (add.getD "") ++ pySplitWs (replace.getD "")
  let newClasses := dedupFirst classList
  if live ≠ newClasses then (newClasses, true) else (live, false)

/-- Order-preserving deduplication as the spec words it — keep each token's first
occurrence and drop the rest. Written independently of `dedupFirst` as the
refinement target for the `classes` claim. -/
def dedupSpec : List String → List String
  | [] => []
  | c :: rest => c :: dedupSpec (rest.filter (fun x => x ≠ c))
termination_by l => l.length
decreasing_by
  simp only [List.length_cons]
  exact Nat.lt_succ_of_le (List.length_filter_le _ _)

/-- The class-merge algorithm as the spec states it: start from the current list,
or the empty list if `replace` is given; remove every token present in `remove`;
append every token from `add`; append every token from `replace`; deduplicate
preserving first-occurrence order. Refinement target for `classesFn`. -/
def classesSpecList (current : List String) (add remove replace : Option String) : List String :=
  dedupSpec
    ((((if replace.isSome then [] else current).filter
        (fun c => c ∉ pySplitWs (remove.getD ""))) ++ pySplitWs (add.getD "")) ++
      pySplitWs (replace.getD ""))

/-- Value of a Quasar prop: a string from `key=value`, or the boolean flag `True`
for a bare `key`. -/
inductive PropVal where
  | str : String → PropVal
  | flag : PropVal
deriving DecidableEq

/-- Python `word.split('=', 1)` when `'=' in word`, else `none`: split at the first
equals sign. -/
def splitFirstEq (w : String) : Option (String × String) :=
  if '=' ∈ w.toList then
    some (String.mk (w.toList.takeWhile (fun c => c ≠ '=')),
          String.mk ((w.toList.dropWhile (fun c => c ≠ '=')).tail))
  else none

/-- The dict-building part of `parse_props`: the `shlex` tokenizer is Python
standard-library code, so it stays external and this function consumes its output
word list. `key=value` words map the key to the value string, bare words map to
the boolean flag `True`. -/
def parse_props_words (words : List String) : PyDict PropVal :=
  dictOfPairs (words.map (fun w =>
    match splitFirstEq w with
    | some kv => (kv.1, PropVal.str kv.2)
    | none => (w, PropVal.flag)))

/-- Result of a call to `Element.props`: the prop mapping after the call and
whether `update()` was invoked (`needs_update` in the source). -/
structure PropsOutcome where
  props : PyDict PropVal
  updated : Bool
deriving DecidableEq

/-- `Element.props(add, remove)` acting on the element's live prop dict, taking the
already-tokenized word lists of the two arguments. Absent remove keys are silently
skipped; an add key is (re)assigned only when its parsed value differs from the
current one, and `needs_update` records whether any deletion or assignment
happened. -/
def propsFn (live : PyDict PropVal) (addWords removeWords : List String) : PropsOutcome :=
  let removeDict := parse_props_words removeWords
  let addDict := parse_props_words addWords
  let afterRemove := (dictKeys removeDict).foldl
    (fun (p : PyDict PropVal × Bool) k =>
      if dictHasKey p.1 k then (dictErase p.1 k, true) else p)
    (live, false)
  let afterAdd := addDict.foldl
    (fun (p : PyDict PropVal × Bool) kv =>
      if dictLookup p.1 kv.1 ≠ some kv.2 then (dictInsert p.1 kv.1 kv.2, true) else p)
    afterRemove
  ⟨afterAdd.1, afterAdd.2⟩

/-- An event listener registered on an element: `EventListener(element_id, type,
args, handler)`; the handler callable is opaque and represented by a numeric
token. -/
structure EventListener where
  element_id : Nat
  type : String
  args : List String
  handler : Nat
deriving DecidableEq

/-- The events aggregation of `Element.to_dict`:
`events[listener.type] = events.get(listener.type, []) + listener.args` over the
listener list in registration order. -/
def buildEvents (listeners : List EventListener) : PyDict (List String) :=
  listeners.foldl
    (fun ev l => dictInsert ev l.type ((dictLookup ev l.type).getD [] ++ l.args)) []

/-- Concatenated argument lists of all listeners of a given type, in registration
order — the expected value of one entry of the serialized `events` mapping. -/
def argsOf (ls : List EventListener) (t : String) : List String :=
  ((ls.filter (fun l => l.type = t)).map (fun l => l.args)).flatten

/-- `Element.on_visibility_change(visible)` acting on the element's live class
list: remove the reserved `hidden` token when becoming visible and present, append
it when becoming invisible and absent; returns the new class list and the number
of `update()` invocations. -/
def onVisibilityChange (classes : List String) (visible : Bool) : List String × Nat :=
  let step1 := if visible && decide ("hidden" ∈ classes)
    then (classes.erase "hidden", 1) else (classes, 0)
  let step2 := if !visible && !decide ("hidden" ∈ step1.1)
    then (step1.1 ++ ["hidden"], step1.2 + 1) else step1
  step2

/-- The attribute state of one element, the fields of `Element.__init__` that
`to_dict` serializes. -/
structure ElementState where
  id : Nat
  tag : String
  classes : List String
  style : PyDict String
  props : PyDict PropVal
  listeners : List EventListener
  text : String
deriving DecidableEq

/-- `Element.classes` as a method: the fluent `return self` is represented by
returning the element state after the in-place mutation, together with the
update flag. -/
def classesMeth (el : ElementState) (add remove replace : Option String) : ElementState × Bool :=
  let r := classesFn el.classes add remove replace
  ({ el with classes := r.1 }, r.2)

/-- An element together with its owned subtree: the `slots` mapping sends each
slot name to the ordered children of that slot, and children are the element
objects themselves (in the source they are reached through `client.elements[id]`,
which resolves a child's id to that same object). -/
inductive ElemTree where
  | node : ElementState → List (String × List ElemTree) → ElemTree

/-- The attribute state at the root of a subtree. -/
def ElemTree.state : ElemTree → ElementState
  | .node st _ => st

/-- The slot mapping at the root of a subtree. -/
def ElemTree.slotList : ElemTree → List (String × List ElemTree)
  | .node _ s => s

/-- The id of the element at the root of a subtree. -/
def ElemTree.rootId (t : ElemTree) : Nat :=
  t.state.id

/-- The wire payload of `Element.to_dict`; the field `cls` embeds the payload key
named `class`, which is reserved in Lean. -/
structure ElemDict where
  id : Nat
  tag : String
  cls : List String
  style : PyDict String
  props : PyDict PropVal
  events : PyDict (List String)
  text : String
  slots : PyDict (List Nat)
deriving DecidableEq

/-- `Element.to_dict`: serialize one element, aggregating events per type and
mapping each slot name to the ordered list of its children's ids. -/
def ElemTree.toDict (t : ElemTree) : ElemDict :=
  { id := t.state.id
    tag := t.state.tag
    cls := t.state.classes
    style := t.state.style
    props := t.state.props
    events := buildEvents t.state.listeners
    text := t.state.text
    slots := t.slotList.map (fun s => (s.1, s.2.map ElemTree.rootId)) }

mutual

/-- The recursive `collect_ids` of `Element.update`: visit every slot's children
recursively, then append the element's own id (post-order). -/
def collectIds : ElemTree → List Nat
  | .node st slots => collectSlots slots ++ [st.id]

/-- Ids contributed by a slot list, in slot order. -/
def collectSlots : List (String × List ElemTree) → List Nat
  | [] => []
  | s :: rest => collectChildren s.2 ++ collectSlots rest

/-- Ids contributed by one slot's children, in child order. -/
def collectChildren : List ElemTree → List Nat
  | [] => []
  | c :: cs => collectIds c ++ collectChildren cs

end

mutual

/-- The subtree nodes in the same post-order as `collectIds`. -/
def collectNodes : ElemTree → List ElemTree
  | .node st slots => collectNodesSlots slots ++ [ElemTree.node st slots]

/-- Nodes contributed by a slot list, in slot order. -/
def collectNodesSlots : List (String × List ElemTree) → List ElemTree
  | [] => []
  | s :: rest => collectNodesChildren s.2 ++ collectNodesSlots rest

/-- Nodes contributed by one slot's children, in child order. -/
def collectNodesChildren : List ElemTree → List ElemTree
  | [] => []
  | c :: cs => collectNodes c ++ collectNodesChildren cs

end

mutual

/-- Number of elements in a subtree: the element itself plus all its descendants. -/
def sizeTree : ElemTree → Nat
  | .node _ slots => sizeSlots slots + 1

/-- Number of elements contributed by a slot list. -/
def sizeSlots : List (String × List ElemTree) → Nat
  | [] => 0
  | s :: rest => sizeChildren s.2 + sizeSlots rest

/-- Number of elements contributed by one slot's children. -/
def sizeChildren : List ElemTree → Nat
  | [] => 0
  | c :: cs => sizeTree c + sizeChildren cs

end

/-- The `elements` payload of `Element.update`:
`elements = (id -> to_dict of the element with that id)` for every collected id,
in collected order. -/
def elementsBatch (t : ElemTree) : List (Nat × ElemDict) :=
  (collectNodes t).map (fun n => (n.rootId, n.toDict))

/-- `Element.update`: if no event loop is running (`globals.loop` unset) return
immediately without dispatching; otherwise collect the owned subtree and dispatch
its serialization batch. The element tree is returned alongside to express that
the call never mutates element state. -/
def updateFn (loopRunning : Bool) (t : ElemTree) : ElemTree × Option (List (Nat × ElemDict)) :=
  if !loopRunning then (t, none)
  else (t, some (elementsBatch t))

/-- Direct children of an element across all of its slots, in slot order. -/
def childrenOf (t : ElemTree) : List ElemTree :=
  (t.slotList.map (fun s => s.2)).flatten

/-- `IsSubtree s t`: `s` is `t` itself or a node of `t`'s owned subtree. -/
inductive IsSubtree : ElemTree → ElemTree → Prop
  | refl (t : ElemTree) : IsSubtree t t
  | step {s c t : ElemTree} : c ∈ childrenOf t → IsSubtree s c → IsSubtree s t

/-! Lemmas about the embedded Python dictionaries. -/

@[simp]
theorem dictLookup_nil {α : Type} (k : String) : dictLookup ([] : PyDict α) k = none := rfl

theorem dictLookup_cons {α : Type} (p : String × α) (d : PyDict α) (k : String) :
    dictLookup (p :: d) k = if p.1 = k then some p.2 else dictLookup d k := rfl

theorem dictLookup_append {α : Type} (d1 d2 : PyDict α) (k : String) :
    dictLookup (d1 ++ d2) k = (dictLookup d1 k).or (dictLookup d2 k) := by
  induction d1 with
  | nil => simp [dictLookup]
  | cons p d ih =>
    by_cases h : p.1 = k <;> simp [dictLookup, h, ih]

theorem dictKeys_cons {α : Type} (p : String × α) (d : PyDict α) :
    dictKeys (p :: d) = p.1 :: dictKeys d := rfl

theorem dictHasKey_iff_mem_keys {α : Type} (d : PyDict α) (k : String) :
    dictHasKey d k = true ↔ k ∈ dictKeys d := by
  induction d with
  | nil => simp [dictHasKey, dictKeys, dictLookup]
  | cons p d ih =>
    rw [dictHasKey, dictLookup_cons, dictKeys_cons]
    by_cases h : p.1 = k
    · simp [h]
    · rw [if_neg h]
      rw [dictHasKey] at ih
      rw [ih, List.mem_cons]
      constructor
      · exact Or.inr
      · intro hm
        rcases hm with hm | hm
        · exact absurd hm.symm h
        · exact hm

theorem dictLookup_eq_none_iff {α : Type} (d : PyDict α) (k : String) :
    dictLookup d k = none ↔ k ∉ dictKeys d := by
  have h := dictHasKey_iff_mem_keys d k
  simp [dictHasKey, Option.isSome_iff_ne_none] at h
  constructor
  · intro hn hm
    exact (h.mpr hm) hn
  · intro hm
    by_contra hn
    exact hm (h.mp (by simpa using hn))

theorem dictErase_cons {α : Type} (p : String × α) (d : PyDict α) (k : String) :
    dictErase (p :: d) k = if p.1 = k then dictErase d k else p :: dictErase d k := by
  by_cases hpk : p.1 = k <;> simp [dictErase, List.filter_cons, hpk]

theorem dictLookup_dictErase_self {α : Type} (d : PyDict α) (k : String) :
    dictLookup (dictErase d k) k = none := by
  induction d with
  | nil => simp [dictErase]
  | cons p d ih =>
    rw [dictErase_cons]
    by_cases hpk : p.1 = k
    · simpa [hpk] using ih
    · simpa [hpk, dictLookup_cons] using ih

theorem dictLookup_dictErase_ne {α : Type} (d : PyDict α) (k k2 : String) (hne : k2 ≠ k) :
    dictLookup (dictErase d k) k2 = dictLookup d k2 := by
  induction d with
  | nil => simp [dictErase]
  | cons p d ih =>
    rw [dictErase_cons]
    by_cases hpk : p.1 = k
    · have hp2 : p.1 ≠ k2 := fun h => hne (h.symm.trans hpk)
      rw [dictLookup_cons, if_neg hp2]
      simpa [hpk] using ih
    · rw [if_neg hpk]
      by_cases hp2 : p.1 = k2 <;> simp [dictLookup_cons, hp2, ih]

theorem dictLookup_dictErase {α : Type} (d : PyDict α) (k k2 : String) :
    dictLookup (dictErase d k) k2 = if k2 = k then none else dictLookup d k2 := by
  by_cases hk : k2 = k
  · simp [hk, dictLookup_dictErase_self]
  · simp [hk, dictLookup_dictErase_ne d k k2 hk]

theorem dictHasKey_dictErase {α : Type} (d : PyDict α) (k k2 : String) :
    dictHasKey (dictErase d k) k2 = if k2 = k then false else dictHasKey d k2 := by
  by_cases hk : k2 = k <;> simp [dictHasKey, dictLookup_dictErase, hk]

theorem dictLookup_map_overwrite {α : Type} (d : PyDict α) (k k2 : String) (v : α)
    (hne : k2 ≠ k) :
    dictLookup (d.map (fun p => if p.1 = k then (k, v) else p)) k2 = dictLookup d k2 := by
  induction d with
  | nil => simp [dictLookup]
  | cons p d ih =>
    rw [List.map_cons]
    by_cases hpk : p.1 = k
    · have hk2 : k ≠ k2 := fun h => hne h.symm
      have hp2 : p.1 ≠ k2 := fun h => hne (h.symm.trans hpk)
      rw [if_pos hpk, dictLookup_cons, dictLookup_cons]
      simp only [if_neg hk2, if_neg hp2]
      exact ih
    · rw [if_neg hpk, dictLookup_cons, dictLookup_cons]
      by_cases hp2 : p.1 = k2
      · simp [hp2]
      · simp only [if_neg hp2]
        exact ih

theorem dictLookup_map_overwrite_self {α : Type} (d : PyDict α) (k : String) (v : α)
    (h : dictHasKey d k = true) :
    dictLookup (d.map (fun p => if p.1 = k then (k, v) else p)) k = some v := by
  induction d with
  | nil => simp [dictHasKey, dictLookup] at h
  | cons p d ih =>
    rw [List.map_cons]
    by_cases hpk : p.1 = k
    · rw [if_pos hpk, dictLookup_cons]
      simp
    · rw [if_neg hpk, dictLookup_cons, if_neg hpk]
      rw [dictHasKey, dictLookup_cons, if_neg hpk] at h
      exact ih h

theorem dictLookup_dictInsert_self {α : Type} (d : PyDict α) (k : String) (v : α) :
    dictLookup (dictInsert d k v) k = some v := by
  by_cases h : dictHasKey d k
  · simp [dictInsert, h, dictLookup_map_overwrite_self d k v h]
  · simp [dictInsert, h, dictLookup_append, dictLookup]
    have : dictLookup d k = none := by
      simp [dictHasKey, Option.isSome_iff_ne_none] at h
      simpa using h
    simp [this]

theorem dictLookup_dictInsert_ne {α : Type} (d : PyDict α) (k k2 : String) (v : α)
    (hne : k2 ≠ k) :
    dictLookup (dictInsert d k v) k2 = dictLookup d k2 := by
  by_cases h : dictHasKey d k
  · simp [dictInsert, h, dictLookup_map_overwrite d k k2 v hne]
  · have : ¬(k = k2) := fun hh => hne hh.symm
    simp [dictInsert, h, dictLookup_append, dictLookup, this]

theorem dictLookup_dictInsert {α : Type} (d : PyDict α) (k k2 : String) (v : α) :
    dictLookup (dictInsert d k v) k2 = if k2 = k then some v else dictLookup d k2 := by
  by_cases hk : k2 = k
  · subst hk
    simp [dictLookup_dictInsert_self]
  · simp [hk, dictLookup_dictInsert_ne d k k2 v hk]

theorem dictKeys_map_overwrite {α : Type} (d : PyDict α) (k : String) (v : α) :
    dictKeys (d.map (fun p => if p.1 = k then (k, v) else p)) = dictKeys d := by
  induction d with
  | nil => rfl
  | cons p d ih =>
    rw [List.map_cons]
    by_cases hpk : p.1 = k
    · rw [if_pos hpk, dictKeys_cons, dictKeys_cons, ih, hpk]
    · rw [if_neg hpk, dictKeys_cons, dictKeys_cons, ih]

theorem dictKeys_dictInsert {α : Type} (d : PyDict α) (k : String) (v : α) :
    dictKeys (dictInsert d k v) = if dictHasKey d k then dictKeys d else dictKeys d ++ [k] := by
  by_cases h : dictHasKey d k
  · simp [dictInsert, h, dictKeys_map_overwrite]
  · simp [dictInsert, h, dictKeys]

theorem dictKeys_dictInsert_nodup {α : Type} (d : PyDict α) (k : String) (v : α)
    (h : (dictKeys d).Nodup) : (dictKeys (dictInsert d k v)).Nodup := by
  rw [dictKeys_dictInsert]
  by_cases hk : dictHasKey d k
  · simpa [hk] using h
  · rw [if_neg hk]
    refine List.Nodup.append h (List.nodup_singleton k) ?_
    intro a ha hb
    rw [List.mem_singleton] at hb
    subst hb
    rw [← dictHasKey_iff_mem_keys] at ha
    exact hk ha

theorem dictKeys_foldl_dictInsert_nodup {α : Type} (ps : List (String × α)) (acc : PyDict α)
    (h : (dictKeys acc).Nodup) :
    (dictKeys (ps.foldl (fun d p => dictInsert d p.1 p.2) acc)).Nodup := by
  induction ps generalizing acc with
  | nil => simpa using h
  | cons p ps ih =>
    simpa using ih (dictInsert acc p.1 p.2) (dictKeys_dictInsert_nodup acc p.1 p.2 h)

theorem dictKeys_dictOfPairs_nodup {α : Type} (ps : List (String × α)) :
    (dictKeys (dictOfPairs ps)).Nodup := by
  simpa [dictOfPairs] using dictKeys_foldl_dictInsert_nodup ps [] (by simp [dictKeys])

theorem dictLookup_self_of_nodup {α : Type} (d : PyDict α) (h : (dictKeys d).Nodup) :
    ∀ p ∈ d, dictLookup d p.1 = some p.2 := by
  induction d with
  | nil => simp
  | cons q d ih =>
    rw [show dictKeys (q :: d) = q.1 :: dictKeys d from rfl, List.nodup_cons] at h
    intro p hp
    rcases List.mem_cons.mp hp with hp | hp
    · subst hp
      simp [dictLookup]
    · have hq : q.1 ≠ p.1 := by
        intro hqp
        apply h.1
        rw [hqp]
        exact List.mem_map_of_mem Prod.fst hp
      simp [dictLookup, hq, ih h.2 p hp]

theorem pyDictEq_refl {α : Type} [DecidableEq α] (d : PyDict α)
    (h : (dictKeys d).Nodup) : pyDictEq d d = true := by
  simp [pyDictEq]
  intro k v hkv
  exact dictLookup_self_of_nodup d h (k, v) hkv

theorem eraseKeys_nil {α : Type} (d : PyDict α) : eraseKeys d [] = d := rfl

theorem eraseKeys_cons {α : Type} (d : PyDict α) (k : String) (ks : List String) :
    eraseKeys d (k :: ks) = eraseKeys (dictErase d k) ks := rfl

theorem dictLookup_eraseKeys_none {α : Type} (d : PyDict α) (k : String)
    (ks : List String) (h : dictLookup d k = none) :
    dictLookup (eraseKeys d ks) k = none := by
  induction ks generalizing d with
  | nil => simpa [eraseKeys_nil] using h
  | cons k2 ks ih =>
    rw [eraseKeys_cons]
    apply ih
    rw [dictLookup_dictErase]
    by_cases hk : k = k2 <;> simp [hk, h]

theorem dictLookup_eraseKeys_mem {α : Type} (d : PyDict α) (k : String)
    (ks : List String) (h : k ∈ ks) :
    dictLookup (eraseKeys d ks) k = none := by
  induction ks generalizing d with
  | nil => cases h
  | cons k2 ks ih =>
    rw [eraseKeys_cons]
    by_cases hk : k = k2
    · apply dictLookup_eraseKeys_none
      rw [dictLookup_dictErase, if_pos hk]
    · rcases List.mem_cons.mp h with hh | hh
      · exact absurd hh hk
      · exact ih (dictErase d k2) hh

/-! Lemmas about the sequential deletion loop of `Element.style`. -/

theorem delKeys_all_present {α : Type} (ks : List String) (d : PyDict α)
    (hnd : ks.Nodup) (h : ∀ k ∈ ks, dictHasKey d k = true) :
    delKeys d ks = (eraseKeys d ks, none) := by
  induction ks generalizing d with
  | nil => simp [delKeys, eraseKeys_nil]
  | cons k ks ih =>
    rw [List.nodup_cons] at hnd
    rw [delKeys, if_pos (h k (List.mem_cons_self k ks)), eraseKeys_cons]
    apply ih (dictErase d k) hnd.2
    intro k2 hk2
    rw [dictHasKey_dictErase, if_neg (by intro he; exact hnd.1 (he ▸ hk2))]
    exact h k2 (List.mem_cons_of_mem k hk2)

theorem delKeys_first_absent {α : Type} (pre : List String) (k : String)
    (post : List String) (d : PyDict α)
    (hnd : pre.Nodup) (hpre : ∀ k2 ∈ pre, dictHasKey d k2 = true)
    (habs : dictLookup d k = none) :
    delKeys d (pre ++ k :: post) = (eraseKeys d pre, some k) := by
  induction pre generalizing d with
  | nil =>
    have : dictHasKey d k = false := by simp [dictHasKey, habs]
    simp [delKeys, this, eraseKeys_nil]
  | cons p pre ih =>
    rw [List.nodup_cons] at hnd
    rw [List.cons_append, delKeys, if_pos (hpre p (List.mem_cons_self p pre)), eraseKeys_cons]
    apply ih (dictErase d p) hnd.2
    · intro k2 hk2
      rw [dictHasKey_dictErase, if_neg (by intro he; exact hnd.1 (he ▸ hk2))]
      exact hpre k2 (List.mem_cons_of_mem p hk2)
    · rw [dictLookup_dictErase]
      by_cases hk : k = p <;> simp [hk, habs]

theorem delKeys_absent_exists {α : Type} (ks : List String) (d : PyDict α)
    (hnd : ks.Nodup) (h : ∃ k ∈ ks, dictLookup d k = none) :
    ∃ k ∈ ks, dictLookup d k = none ∧ (delKeys d ks).2 = some k := by
  induction ks generalizing d with
  | nil => simp at h
  | cons k2 ks ih =>
    rw [List.nodup_cons] at hnd
    by_cases h1 : dictHasKey d k2 = true
    · obtain ⟨k, hk, hnone⟩ := h
      have hkks : k ∈ ks := by
        rcases List.mem_cons.mp hk with hh | hh
        · subst hh
          rw [dictHasKey, hnone] at h1
          cases h1
        · exact hh
      have hex : ∃ k ∈ ks, dictLookup (dictErase d k2) k = none := by
        refine ⟨k, hkks, ?_⟩
        rw [dictLookup_dictErase]
        by_cases he : k = k2 <;> simp [he, hnone]
      obtain ⟨k3, hk3, hn3, hres⟩ := ih (dictErase d k2) hnd.2 hex
      refine ⟨k3, List.mem_cons_of_mem k2 hk3, ?_, ?_⟩
      · rw [dictLookup_dictErase, if_neg (by intro he; exact hnd.1 (he ▸ hk3))] at hn3
        exact hn3
      · rw [delKeys, if_pos h1]
        exact hres
    · refine ⟨k2, List.mem_cons_self k2 ks, ?_, ?_⟩
      · rw [Bool.not_eq_true] at h1
        rw [dictHasKey] at h1
        simpa using h1
      · simp [delKeys, h1]

/-! Parsing facts for the style mini-language. -/

theorem parse_style_keys_nodup (r : String) (rd : PyDict String)
    (hp : parse_style r = some rd) : (dictKeys rd).Nodup := by
  unfold parse_style at hp
  by_cases h : r = ""
  · rw [if_pos h] at hp
    cases hp
    simp [dictKeys]
  · rw [if_neg h] at hp
    rw [Option.map_eq_some'] at hp
    obtain ⟨l, hl, hrd⟩ := hp
    exact hrd ▸ dictKeys_dictOfPairs_nodup l

/-! Evaluation shape of `Element.style` for remove-only calls. -/

theorem styleFn_remove_of_parse (live : PyDict String) (r : String)
    (rd : PyDict String) (hp : parse_style r = some rd) :
    styleFn live none (some r) none =
      (match delKeys live (dictKeys rd) with
      | (d, some k) => ⟨d, some (StyleErr.keyErr k), false⟩
      | (d, none) => if pyDictEq d d then ⟨d, none, false⟩ else ⟨d, none, true⟩) := by
  rw [styleFn]
  simp only [parseStyleOpt, hp, Option.isNone_none]
  rcases hd : delKeys live (dictKeys rd) with ⟨d, e⟩
  cases e <;> simp [hd, dictUpdate]

/-- C1: the claim states that `style(add, remove, replace)` dispatches an update
exactly when the style mapping changes. Evaluating `Element.style` at concrete
inputs with `replace` omitted shows the code violating this: `style(add="color:red")`
on an empty style mapping changes the mapping to `color -> red`, and
`style(remove="a:1")` on the mapping `a -> 1` changes it to the empty mapping, yet
neither call invokes `update()` — the working dict aliases the live mapping, so
the final net-change comparison compares the mapping with itself. -/
theorem C1_style_change_without_update :
    (styleFn [] (some "color:red") none none = ⟨[("color", "red")], none, false⟩ ∧
      ([] : PyDict String) ≠ [("color", "red")]) ∧
    (styleFn [("a", "1")] none (some "a:1") none = ⟨[], none, false⟩ ∧
      [("a", "1")] ≠ ([] : PyDict String)) := by
  decide

/-- C2: for `style(remove=r)` with `r` well formed, if some parsed key is absent
from the live style mapping the call raises a `KeyError`; if every parsed key is
present the call raises nothing, deletes exactly those keys from the live mapping,
and a subsequent `to_dict` serialization of the element omits them from the style
field. -/
theorem C2_style_remove_absent_key_raises (live : PyDict String) (r : String)
    (rd : PyDict String) (hp : parse_style r = some rd) :
    ((∃ k ∈ dictKeys rd, dictLookup live k = none) →
      ∃ k ∈ dictKeys rd, dictLookup live k = none ∧
        (styleFn live none (some r) none).err = some (StyleErr.keyErr k)) ∧
    ((∀ k ∈ dictKeys rd, dictHasKey live k = true) →
      (styleFn live none (some r) none).err = none ∧
      (styleFn live none (some r) none).style = eraseKeys live (dictKeys rd) ∧
      (∀ k ∈ dictKeys rd,
        ∀ (st : ElementState) (sl : List (String × List ElemTree)),
          st.style = (styleFn live none (some r) none).style →
          dictLookup (ElemTree.toDict (ElemTree.node st sl)).style k = none)) := by
  have hnd := parse_style_keys_nodup r rd hp
  constructor
  · intro hex
    obtain ⟨k, hk, hnone, hres⟩ := delKeys_absent_exists (dictKeys rd) live hnd hex
    refine ⟨k, hk, hnone, ?_⟩
    rw [styleFn_remove_of_parse live r rd hp]
    rcases hdel : delKeys live (dictKeys rd) with ⟨d, e⟩
    rw [hdel] at hres
    cases e with
    | none => cases hres
    | some k2 =>
      have : k2 = k := by simpa using hres
      subst this
      rfl
  · intro hall
    have hdel := delKeys_all_present (dictKeys rd) live hnd hall
    have hshape : (styleFn live none (some r) none).err = none ∧
        (styleFn live none (some r) none).style = eraseKeys live (dictKeys rd) := by
      rw [styleFn_remove_of_parse live r rd hp, hdel]
      by_cases hEq : pyDictEq (eraseKeys live (dictKeys rd)) (eraseKeys live (dictKeys rd)) = true <;>
        simp [hEq]
    refine ⟨hshape.1, hshape.2, ?_⟩
    intro k hk st sl hst2
    show dictLookup st.style k = none
    rw [hst2, hshape.2]
    exact dictLookup_eraseKeys_mem live k (dictKeys rd) hk

/-- Witness for C2 at a concrete input: removing the present key `color` from the
mapping `color -> red, margin -> 0` raises nothing and deletes the key. -/
theorem C2_style_remove_witness :
    (styleFn [("color", "red"), ("margin", "0")] none (some "color:red") none).err = none ∧
    (styleFn [("color", "red"), ("margin", "0")] none (some "color:red") none).style =
      eraseKeys [("color", "red"), ("margin", "0")] (dictKeys [("color", "red")]) :=
  ⟨((C2_style_remove_absent_key_raises [("color", "red"), ("margin", "0")] "color:red"
      [("color", "red")] (by decide)).2 (by decide)).1,
   ((C2_style_remove_absent_key_raises [("color", "red"), ("margin", "0")] "color:red"
      [("color", "red")] (by decide)).2 (by decide)).2.1⟩

/-- C6: with `replace` omitted, a failing `style(remove=r)` call is not atomic:
if the parsed keys are `pre ++ k :: post` with every key of `pre` present in the
live mapping and `k` absent, the call raises `KeyError(k)` after the deletions of
`pre` have already been applied to the live mapping, with no rollback, because the
working dict aliases the live mapping. -/
theorem C6_style_remove_not_atomic (live : PyDict String) (r : String)
    (rd : PyDict String) (pre : List String) (k : String) (post : List String)
    (hp : parse_style r = some rd)
    (hks : dictKeys rd = pre ++ k :: post)
    (hpre : ∀ k2 ∈ pre, dictHasKey live k2 = true)
    (habs : dictLookup live k = none) :
    styleFn live none (some r) none =
      ⟨eraseKeys live pre, some (StyleErr.keyErr k), false⟩ := by
  have hnd := parse_style_keys_nodup r rd hp
  rw [hks] at hnd
  have hndpre : pre.Nodup := hnd.of_append_left
  have hdel := delKeys_first_absent pre k post live hndpre hpre habs
  rw [styleFn_remove_of_parse live r rd hp, hks, hdel]

/-- Witness for C6 at a concrete input: removing `a`, `zz`, `b` from the mapping
`a -> 1, b -> 2` raises `KeyError(zz)` with the deletion of `a` already applied
and `b` still present. -/
theorem C6_style_remove_not_atomic_witness :
    styleFn [("a", "1"), ("b", "2")] none (some "a:0; zz:9; b:0") none =
      ⟨eraseKeys [("a", "1"), ("b", "2")] ["a"], some (StyleErr.keyErr "zz"), false⟩ :=
  C6_style_remove_not_atomic [("a", "1"), ("b", "2")] "a:0; zz:9; b:0"
    [("a", "0"), ("zz", "9"), ("b", "0")] ["a"] "zz" ["b"]
    (by decide) (by decide) (by decide) (by decide)

/-! Lemmas about order-preserving deduplication. -/

theorem dedupFirst_go (l acc : List String) :
    l.foldl (fun acc c => if c ∈ acc then acc else acc ++ [c]) acc =
      acc ++ dedupSpec (l.filter (fun x => x ∉ acc)) := by
  induction l generalizing acc with
  | nil => rw [List.foldl_nil, List.filter_nil, dedupSpec, List.append_nil]
  | cons c l ih =>
    rw [List.foldl_cons]
    by_cases hc : c ∈ acc
    · rw [if_pos hc, ih, List.filter_cons]
      rw [if_neg (by simp [hc])]
    · rw [if_neg hc, ih, List.filter_cons]
      rw [if_pos (by simp [hc]), dedupSpec, List.append_assoc, List.singleton_append,
        List.filter_filter]
      congr 3
      apply List.filter_congr
      intro x hx
      by_cases hxc : x = c <;> by_cases hxa : x ∈ acc <;> simp [hxc, hxa]

theorem dedupFirst_eq_dedupSpec (l : List String) : dedupFirst l = dedupSpec l := by
  rw [dedupFirst, dedupFirst_go l [], List.nil_append]
  congr 1
  apply List.filter_eq_self.mpr
  intro a _
  simp

theorem mem_dedupSpec : ∀ (l : List String) (x : String), x ∈ dedupSpec l ↔ x ∈ l
  | [], x => by simp [dedupSpec]
  | c :: l, x => by
    rw [dedupSpec, List.mem_cons,
      mem_dedupSpec (l.filter (fun y => y ≠ c)) x, List.mem_filter, List.mem_cons]
    constructor
    · intro h
      rcases h with h | h
      · exact Or.inl h
      · exact Or.inr h.1
    · intro h
      rcases h with h | h
      · exact Or.inl h
      · by_cases hxc : x = c
        · exact Or.inl hxc
        · exact Or.inr ⟨h, by simp [hxc]⟩
termination_by l => l.length
decreasing_by
  simp only [List.length_cons]
  exact Nat.lt_succ_of_le (List.length_filter_le _ l)

theorem dedupSpec_nodup : ∀ (l : List String), (dedupSpec l).Nodup
  | [] => by simp [dedupSpec]
  | c :: l => by
    rw [dedupSpec, List.nodup_cons]
    refine ⟨?_, dedupSpec_nodup _⟩
    rw [mem_dedupSpec, List.mem_filter]
    simp
termination_by l => l.length
decreasing_by
  simp only [List.length_cons]
  exact Nat.lt_succ_of_le (List.length_filter_le _ l)

theorem dedupSpec_of_nodup : ∀ (l : List String), l.Nodup → dedupSpec l = l
  | [], _ => by simp [dedupSpec]
  | c :: l, h => by
    rw [List.nodup_cons] at h
    rw [dedupSpec]
    have hf : l.filter (fun x => x ≠ c) = l := by
      apply List.filter_eq_self.mpr
      intro a ha
      simp only [decide_eq_true_eq]
      intro he
      exact h.1 (he ▸ ha)
    rw [hf, dedupSpec_of_nodup l h.2]
termination_by l => l.length
decreasing_by
  simp only [List.length_cons]
  exact Nat.lt_succ_self _

theorem dedupFirst_nodup (l : List String) : (dedupFirst l).Nodup := by
  rw [dedupFirst_eq_dedupSpec]
  exact dedupSpec_nodup l

theorem mem_dedupFirst (l : List String) (x : String) : x ∈ dedupFirst l ↔ x ∈ l := by
  rw [dedupFirst_eq_dedupSpec]
  exact mem_dedupSpec l x

theorem dedupFirst_of_nodup (l : List String) (h : l.Nodup) : dedupFirst l = l := by
  rw [dedupFirst_eq_dedupSpec]
  exact dedupSpec_of_nodup l h

theorem dedupFirst_append_mem (l : List String) (x : String)
    (hnd : l.Nodup) (hx : x ∈ l) : dedupFirst (l ++ [x]) = l := by
  rw [dedupFirst, List.foldl_append]
  rw [show l.foldl (fun acc c => if c ∈ acc then acc else acc ++ [c]) [] = dedupFirst l from rfl]
  rw [dedupFirst_of_nodup l hnd]
  simp [hx]

/-! Evaluation shape of `Element.classes`. -/

theorem classes_ite_fst (l n : List String) :
    (if l ≠ n then (n, true) else (l, false)).1 = n := by
  by_cases h : l = n
  · rw [if_neg (not_ne_iff.mpr h)]
    exact h
  · rw [if_pos h]

theorem classesFn_fst (live : List String) (add remove replace : Option String) :
    (classesFn live add remove replace).1 = classesSpecList live add remove replace := by
  have hbase : (if replace.isNone then live else []) =
      (if replace.isSome then [] else live) := by
    cases replace <;> rfl
  rw [classesFn, classesSpecList, ← dedupFirst_eq_dedupSpec, ← hbase]
  exact classes_ite_fst live _

theorem classesFn_add_token (live : List String) (t : String) (ht : pySplitWs t = [t]) :
    classesFn live (some t) none none =
      (if live ≠ dedupFirst (live ++ [t]) then (dedupFirst (live ++ [t]), true)
       else (live, false)) := by
  have h0 : pySplitWs "" = [] := by decide
  rw [classesFn]
  simp [ht, h0]

/-- C3: the class list resulting from `classes(add, remove, replace)` equals the
current list (or empty list if `replace` is given) minus the tokens of `remove`,
followed by the tokens of `add`, then those of `replace`, deduplicated preserving
first-occurrence order; `classes(add="b a")` then `classes(add="c")` on an empty
list yields `b, a, c`; the call returns the element itself (the mutated element
state). -/
theorem C3_classes_merge_algorithm (el : ElementState) (add remove replace : Option String) :
    classesMeth el add remove replace =
      ({ el with classes := classesSpecList el.classes add remove replace },
        (classesFn el.classes add remove replace).2) ∧
    (classesFn [] (some "b a") none none).1 = ["b", "a"] ∧
    (classesFn (classesFn [] (some "b a") none none).1 (some "c") none none).1 =
      ["b", "a", "c"] := by
  refine ⟨?_, by decide, by decide⟩
  rw [classesMeth]
  rw [classesFn_fst el.classes add remove replace]

/-- C7: `classes(add="x")` is idempotent — a second identical call leaves the
class list unchanged and invokes no update; and on any duplicate-free class list
already containing `x`, `classes(add="x")` is a complete no-op with zero update
dispatches. -/
theorem C7_classes_add_idempotent (live : List String) (hnd : live.Nodup) :
    (classesFn (classesFn live (some "x") none none).1 (some "x") none none =
      ((classesFn live (some "x") none none).1, false)) ∧
    ("x" ∈ live → classesFn live (some "x") none none = (live, false)) := by
  have hx : pySplitWs "x" = ["x"] := by decide
  have hl1 : (classesFn live (some "x") none none).1 = dedupFirst (live ++ ["x"]) := by
    rw [classesFn_add_token live "x" hx]
    exact classes_ite_fst live _
  constructor
  · rw [classesFn_add_token _ "x" hx, hl1]
    have hmem : "x" ∈ dedupFirst (live ++ ["x"]) := by
      rw [mem_dedupFirst]
      simp
    rw [dedupFirst_append_mem _ "x" (dedupFirst_nodup _) hmem]
    simp
  · intro hxin
    rw [classesFn_add_token live "x" hx, dedupFirst_append_mem live "x" hnd hxin]
    simp

/-- Witness for C7 at a concrete input: on the list `a, x` the call
`classes(add="x")` changes nothing and dispatches no update, twice over. -/
theorem C7_classes_add_idempotent_witness :
    (classesFn (classesFn ["a", "x"] (some "x") none none).1 (some "x") none none =
      ((classesFn ["a", "x"] (some "x") none none).1, false)) ∧
    classesFn ["a", "x"] (some "x") none none = (["a", "x"], false) :=
  ⟨(C7_classes_add_idempotent ["a", "x"] (by decide)).1,
   (C7_classes_add_idempotent ["a", "x"] (by decide)).2 (by decide)⟩

/-! Evaluation shape of `Element.on_visibility_change`. -/

theorem onVisibilityChange_true (classes : List String) :
    onVisibilityChange classes true =
      (if "hidden" ∈ classes then (classes.erase "hidden", 1) else (classes, 0)) := by
  by_cases h : "hidden" ∈ classes <;> simp [onVisibilityChange, h]

theorem onVisibilityChange_false (classes : List String) :
    onVisibilityChange classes false =
      (if "hidden" ∈ classes then (classes, 0) else (classes ++ ["hidden"], 1)) := by
  by_cases h : "hidden" ∈ classes <;> simp [onVisibilityChange, h]

/-- C8: `on_visibility_change` adds the reserved token `hidden` when becoming
invisible and absent, removes it when becoming visible and present, triggers an
update only on such an actual change, and calling it twice with `false` updates
exactly once, the second call being a no-op. -/
theorem C8_visibility_toggle_idempotent (classes : List String) :
    ("hidden" ∉ classes → onVisibilityChange classes false = (classes ++ ["hidden"], 1)) ∧
    ("hidden" ∈ classes → onVisibilityChange classes true = (classes.erase "hidden", 1)) ∧
    ("hidden" ∈ classes → onVisibilityChange classes false = (classes, 0)) ∧
    ("hidden" ∉ classes → onVisibilityChange classes true = (classes, 0)) ∧
    (onVisibilityChange (onVisibilityChange classes false).1 false =
      ((onVisibilityChange classes false).1, 0)) ∧
    ("hidden" ∉ classes →
      (onVisibilityChange classes false).2 +
        (onVisibilityChange (onVisibilityChange classes false).1 false).2 = 1) := by
  have hsecond : "hidden" ∈ (onVisibilityChange classes false).1 := by
    rw [onVisibilityChange_false]
    by_cases h : "hidden" ∈ classes <;> simp [h]
  refine ⟨?_, ?_, ?_, ?_, ?_, ?_⟩
  · intro h
    rw [onVisibilityChange_false, if_neg h]
  · intro h
    rw [onVisibilityChange_true, if_pos h]
  · intro h
    rw [onVisibilityChange_false, if_pos h]
  · intro h
    rw [onVisibilityChange_true, if_neg h]
  · rw [onVisibilityChange_false (onVisibilityChange classes false).1, if_pos hsecond]
  · intro h
    rw [onVisibilityChange_false (onVisibilityChange classes false).1, if_pos hsecond]
    rw [onVisibilityChange_false, if_neg h]
    rfl

/-- Witness for C8 at a concrete input: on the list `a` the first
`on_visibility_change(false)` appends `hidden` and updates once; the second is a
no-op. -/
theorem C8_visibility_toggle_witness :
    onVisibilityChange ["a"] false = (["a", "hidden"], 1) ∧
    onVisibilityChange (onVisibilityChange ["a"] false).1 false =
      ((onVisibilityChange ["a"] false).1, 0) :=
  ⟨(C8_visibility_toggle_idempotent ["a"]).1 (by decide),
   (C8_visibility_toggle_idempotent ["a"]).2.2.2.2.1⟩

/-! Lemmas about the two loops of `Element.props`. -/

theorem dictErase_of_not_has {α : Type} (d : PyDict α) (k : String)
    (h : ¬dictHasKey d k = true) : dictErase d k = d := by
  apply List.filter_eq_self.mpr
  intro p hp
  simp only [decide_eq_true_eq]
  intro he
  apply h
  rw [dictHasKey_iff_mem_keys, ← he]
  exact List.mem_map_of_mem Prod.fst hp

theorem dictLookup_eraseKeys_not_mem {α : Type} (d : PyDict α) (k : String)
    (ks : List String) (h : k ∉ ks) :
    dictLookup (eraseKeys d ks) k = dictLookup d k := by
  induction ks generalizing d with
  | nil => rfl
  | cons k2 ks ih =>
    rw [eraseKeys_cons, ih (dictErase d k2) (fun hm => h (List.mem_cons_of_mem k2 hm)),
      dictLookup_dictErase, if_neg (by intro he; exact h (he ▸ List.mem_cons_self k2 ks))]

theorem propsRemoveLoop (ks : List String) :
    ∀ (d : PyDict PropVal) (b : Bool),
    ks.foldl (fun (p : PyDict PropVal × Bool) k =>
        if dictHasKey p.1 k then (dictErase p.1 k, true) else p) (d, b) =
      (eraseKeys d ks, b || ks.any (fun k => dictHasKey d k)) := by
  induction ks with
  | nil => intro d b; simp [eraseKeys_nil]
  | cons k ks ih =>
    intro d b
    rw [List.foldl_cons, List.any_cons, eraseKeys_cons]
    by_cases h : dictHasKey d k = true
    · rw [if_pos h, ih (dictErase d k) true, h]
      simp
    · rw [if_neg h, ih d b, dictErase_of_not_has d k h]
      rw [Bool.not_eq_true] at h
      rw [h]
      simp

theorem propsAddLoopLookup (ps : List (String × PropVal)) :
    ∀ (d : PyDict PropVal) (b : Bool) (k : String), (dictKeys ps).Nodup →
    dictLookup ((ps.foldl (fun (p : PyDict PropVal × Bool) kv =>
        if dictLookup p.1 kv.1 ≠ some kv.2 then (dictInsert p.1 kv.1 kv.2, true) else p)
      (d, b)).1) k = (dictLookup ps k).or (dictLookup d k) := by
  induction ps with
  | nil => intro d b k _; simp [dictLookup]
  | cons kv ps ih =>
    intro d b k hnd
    rw [show dictKeys (kv :: ps) = kv.1 :: dictKeys ps from rfl, List.nodup_cons] at hnd
    rw [List.foldl_cons]
    have hstep : ∀ k2, dictLookup (if dictLookup d kv.1 ≠ some kv.2
        then (dictInsert d kv.1 kv.2, true) else (d, b)).1 k2 =
        if k2 = kv.1 then some kv.2 else dictLookup d k2 := by
      intro k2
      by_cases hne : dictLookup d kv.1 ≠ some kv.2
      · rw [if_pos hne]
        exact dictLookup_dictInsert d kv.1 k2 kv.2
      · rw [if_neg hne]
        rw [not_ne_iff] at hne
        by_cases hk2 : k2 = kv.1
        · rw [if_pos hk2, hk2, hne]
        · rw [if_neg hk2]
    rcases hsplit : (if dictLookup d kv.1 ≠ some kv.2
        then (dictInsert d kv.1 kv.2, true) else (d, b)) with ⟨d2, b2⟩
    rw [hsplit] at hstep
    rw [ih d2 b2 k hnd.2]
    by_cases hk : k = kv.1
    · have hp : dictLookup ps k = none := by
        rw [dictLookup_eq_none_iff]
        rw [hk]
        exact hnd.1
      rw [hp, dictLookup_cons, if_pos hk.symm, hstep k, if_pos hk]
      simp
    · rw [dictLookup_cons, if_neg (fun he => hk he.symm), hstep k, if_neg hk]

theorem propsAddLoopFlag (ps : List (String × PropVal)) :
    ∀ (d : PyDict PropVal) (b : Bool),
    ((ps.foldl (fun (p : PyDict PropVal × Bool) kv =>
        if dictLookup p.1 kv.1 ≠ some kv.2 then (dictInsert p.1 kv.1 kv.2, true) else p)
      (d, b)).2) = (b || ps.any (fun kv => dictLookup d kv.1 ≠ some kv.2)) := by
  induction ps with
  | nil => intro d b; simp
  | cons kv ps ih =>
    intro d b
    rw [List.foldl_cons, List.any_cons]
    by_cases hne : dictLookup d kv.1 ≠ some kv.2
    · rw [if_pos hne, ih (dictInsert d kv.1 kv.2) true]
      simp [hne]
    · rw [if_neg hne, ih d b]
      simp [hne]

theorem parse_props_words_keys_nodup (ws : List String) :
    (dictKeys (parse_props_words ws)).Nodup := by
  rw [parse_props_words]
  exact dictKeys_dictOfPairs_nodup _

/-- C5: for `props(add, remove)`, keys parsed from `remove` that are absent from
the prop mapping are silently skipped, present keys are deleted, keys parsed from
`add` are set or overwritten, and `needs_update` (hence the update dispatch) is
true exactly when some prop was actually deleted or assigned a value differing
from its current one. The `shlex` tokenizer is standard-library code, so the two
arguments are taken as its output word lists. -/
theorem C5_props_remove_silent_update_iff (live : PyDict PropVal)
    (addWords removeWords : List String) :
    (∀ k, dictLookup (propsFn live addWords removeWords).props k =
      (dictLookup (parse_props_words addWords) k).or
        (if k ∈ dictKeys (parse_props_words removeWords) then none
         else dictLookup live k)) ∧
    ((propsFn live addWords removeWords).updated = true ↔
      ((∃ k ∈ dictKeys (parse_props_words removeWords), dictHasKey live k = true) ∨
       (∃ kv ∈ parse_props_words addWords,
         dictLookup (eraseKeys live (dictKeys (parse_props_words removeWords))) kv.1 ≠
           some kv.2))) := by
  have hprops : (propsFn live addWords removeWords).props =
      ((parse_props_words addWords).foldl
        (fun (p : PyDict PropVal × Bool) kv =>
          if dictLookup p.1 kv.1 ≠ some kv.2 then (dictInsert p.1 kv.1 kv.2, true) else p)
        (eraseKeys live (dictKeys (parse_props_words removeWords)),
          false || (dictKeys (parse_props_words removeWords)).any
            (fun k => dictHasKey live k))).1 := by
    simp only [propsFn]
    rw [propsRemoveLoop]
  have hupd : (propsFn live addWords removeWords).updated =
      ((parse_props_words addWords).foldl
        (fun (p : PyDict PropVal × Bool) kv =>
          if dictLookup p.1 kv.1 ≠ some kv.2 then (dictInsert p.1 kv.1 kv.2, true) else p)
        (eraseKeys live (dictKeys (parse_props_words removeWords)),
          false || (dictKeys (parse_props_words removeWords)).any
            (fun k => dictHasKey live k))).2 := by
    simp only [propsFn]
    rw [propsRemoveLoop]
  constructor
  · intro k
    rw [hprops, propsAddLoopLookup (parse_props_words addWords) _ _ k
      (parse_props_words_keys_nodup addWords)]
    by_cases hk : k ∈ dictKeys (parse_props_words removeWords)
    · rw [if_pos hk, dictLookup_eraseKeys_mem live k _ hk]
    · rw [if_neg hk, dictLookup_eraseKeys_not_mem live k _ hk]
  · rw [hupd, propsAddLoopFlag (parse_props_words addWords) _ _]
    simp [List.any_eq_true]

/-! Lemmas about event aggregation in `Element.to_dict`. -/

theorem buildEvents_go (ls : List EventListener) :
    ∀ (acc : PyDict (List String)) (t : String),
    dictLookup (ls.foldl (fun ev l =>
        dictInsert ev l.type ((dictLookup ev l.type).getD [] ++ l.args)) acc) t =
      ((dictLookup acc t).map (fun a => a ++ argsOf ls t)).or
        (if ls.any (fun l => l.type = t) then some (argsOf ls t) else none) := by
  induction ls with
  | nil =>
    intro acc t
    cases hacc : dictLookup acc t <;> simp [argsOf, hacc]
  | cons l ls ih =>
    intro acc t
    rw [List.foldl_cons, ih]
    by_cases hty : l.type = t
    · subst hty
      rw [dictLookup_dictInsert_self]
      cases hacc : dictLookup acc l.type with
      | none =>
        simp [argsOf, List.filter_cons, List.any_cons, hacc]
      | some a =>
        simp [argsOf, List.filter_cons, List.any_cons, hacc]
    · rw [dictLookup_dictInsert_ne acc l.type t _ (fun he => hty he.symm)]
      have hfil : argsOf (l :: ls) t = argsOf ls t := by
        rw [argsOf, argsOf, List.filter_cons, if_neg (by simp [hty])]
      rw [hfil, List.any_cons]
      simp [hty]

theorem buildEvents_keys_nodup (ls : List EventListener) :
    ∀ (acc : PyDict (List String)), (dictKeys acc).Nodup →
    (dictKeys (ls.foldl (fun ev l =>
        dictInsert ev l.type ((dictLookup ev l.type).getD [] ++ l.args)) acc)).Nodup := by
  induction ls with
  | nil => intro acc h; exact h
  | cons l ls ih =>
    intro acc h
    rw [List.foldl_cons]
    exact ih _ (dictKeys_dictInsert_nodup acc l.type _ h)

/-- C9: the `events` field of `to_dict` maps each registered event type to a
single entry (the key list has no duplicates) whose argument list is the
concatenation of the argument lists of all listeners of that type, in
registration order; an unregistered type has no entry. -/
theorem C9_events_merged_per_type (st : ElementState)
    (sl : List (String × List ElemTree)) (t : String) :
    dictLookup (ElemTree.toDict (ElemTree.node st sl)).events t =
      (if st.listeners.any (fun l => l.type = t) then some (argsOf st.listeners t)
       else none) ∧
    (dictKeys (ElemTree.toDict (ElemTree.node st sl)).events).Nodup := by
  constructor
  · show dictLookup (buildEvents st.listeners) t = _
    rw [buildEvents, buildEvents_go st.listeners [] t]
    simp
  · show (dictKeys (buildEvents st.listeners)).Nodup
    rw [buildEvents]
    exact buildEvents_keys_nodup st.listeners [] (by simp [dictKeys])

/-! Lemmas about the post-order subtree collection of `Element.update`. -/

mutual

theorem collectNodes_map_rootId : ∀ (t : ElemTree),
    (collectNodes t).map ElemTree.rootId = collectIds t
  | .node st slots => by
    rw [collectNodes, collectIds, List.map_append, collectNodesSlots_map_rootId slots]
    rfl

theorem collectNodesSlots_map_rootId : ∀ (sl : List (String × List ElemTree)),
    (collectNodesSlots sl).map ElemTree.rootId = collectSlots sl
  | [] => rfl
  | s :: rest => by
    rw [collectNodesSlots, collectSlots, List.map_append,
      collectNodesChildren_map_rootId s.2, collectNodesSlots_map_rootId rest]

theorem collectNodesChildren_map_rootId : ∀ (cs : List ElemTree),
    (collectNodesChildren cs).map ElemTree.rootId = collectChildren cs
  | [] => rfl
  | c :: cs => by
    rw [collectNodesChildren, collectChildren, List.map_append,
      collectNodes_map_rootId c, collectNodesChildren_map_rootId cs]

end

mutual

theorem collectNodes_length : ∀ (t : ElemTree), (collectNodes t).length = sizeTree t
  | .node st slots => by
    rw [collectNodes, sizeTree, List.length_append, collectNodesSlots_length slots]
    rfl

theorem collectNodesSlots_length : ∀ (sl : List (String × List ElemTree)),
    (collectNodesSlots sl).length = sizeSlots sl
  | [] => rfl
  | s :: rest => by
    rw [collectNodesSlots, sizeSlots, List.length_append,
      collectNodesChildren_length s.2, collectNodesSlots_length rest]

theorem collectNodesChildren_length : ∀ (cs : List ElemTree),
    (collectNodesChildren cs).length = sizeChildren cs
  | [] => rfl
  | c :: cs => by
    rw [collectNodesChildren, sizeChildren, List.length_append,
      collectNodes_length c, collectNodesChildren_length cs]

end

mutual

theorem mem_collectNodes_isSubtree : ∀ (t n : ElemTree), n ∈ collectNodes t → IsSubtree n t
  | .node st slots, n, h => by
    rw [collectNodes] at h
    rcases List.mem_append.mp h with h | h
    · obtain ⟨c, hc, hsub⟩ := mem_collectNodesSlots_isSubtree slots n h
      exact IsSubtree.step (show c ∈ childrenOf (ElemTree.node st slots) from hc) hsub
    · rw [List.mem_singleton] at h
      subst h
      exact IsSubtree.refl _

theorem mem_collectNodesSlots_isSubtree : ∀ (sl : List (String × List ElemTree)) (n : ElemTree),
    n ∈ collectNodesSlots sl → ∃ c ∈ (sl.map (fun s => s.2)).flatten, IsSubtree n c
  | [], n, h => by
    rw [collectNodesSlots] at h
    cases h
  | s :: rest, n, h => by
    rw [collectNodesSlots] at h
    rcases List.mem_append.mp h with h | h
    · obtain ⟨c, hc, hsub⟩ := mem_collectNodesChildren_isSubtree s.2 n h
      refine ⟨c, ?_, hsub⟩
      rw [List.map_cons, List.flatten_cons]
      exact List.mem_append_left _ hc
    · obtain ⟨c, hc, hsub⟩ := mem_collectNodesSlots_isSubtree rest n h
      refine ⟨c, ?_, hsub⟩
      rw [List.map_cons, List.flatten_cons]
      exact List.mem_append_right _ hc

theorem mem_collectNodesChildren_isSubtree : ∀ (cs : List ElemTree) (n : ElemTree),
    n ∈ collectNodesChildren cs → ∃ c ∈ cs, IsSubtree n c
  | [], n, h => by
    rw [collectNodesChildren] at h
    cases h
  | c :: cs, n, h => by
    rw [collectNodesChildren] at h
    rcases List.mem_append.mp h with h | h
    · exact ⟨c, List.mem_cons_self c cs, mem_collectNodes_isSubtree c n h⟩
    · obtain ⟨c2, hc2, hsub⟩ := mem_collectNodesChildren_isSubtree cs n h
      exact ⟨c2, List.mem_cons_of_mem c hc2, hsub⟩

end

theorem self_mem_collectNodes : ∀ (t : ElemTree), t ∈ collectNodes t
  | .node st slots => by
    rw [collectNodes]
    exact List.mem_append_right _ (List.mem_singleton_self _)

theorem collectNodes_sublist_children : ∀ (cs : List ElemTree) (c : ElemTree), c ∈ cs →
    (collectNodes c).Sublist (collectNodesChildren cs)
  | [], c, h => absurd h (List.not_mem_nil c)
  | c2 :: cs, c, h => by
    rw [collectNodesChildren]
    rcases List.mem_cons.mp h with h | h
    · subst h
      exact List.sublist_append_left _ _
    · exact (collectNodes_sublist_children cs c h).trans (List.sublist_append_right _ _)

theorem collectNodesChildren_sublist_slots :
    ∀ (sl : List (String × List ElemTree)) (s : String × List ElemTree), s ∈ sl →
    (collectNodesChildren s.2).Sublist (collectNodesSlots sl)
  | [], s, h => absurd h (List.not_mem_nil s)
  | s2 :: sl, s, h => by
    rw [collectNodesSlots]
    rcases List.mem_cons.mp h with h | h
    · subst h
      exact List.sublist_append_left _ _
    · exact (collectNodesChildren_sublist_slots sl s h).trans (List.sublist_append_right _ _)

theorem childrenOf_collectNodes_sublist (t c : ElemTree) (h : c ∈ childrenOf t) :
    (collectNodes c).Sublist (collectNodes t) := by
  cases t with
  | node st slots =>
    rw [collectNodes]
    rw [childrenOf, ElemTree.slotList, List.mem_flatten] at h
    obtain ⟨l, hl, hc⟩ := h
    rw [List.mem_map] at hl
    obtain ⟨s, hs, rfl⟩ := hl
    exact ((collectNodes_sublist_children s.2 c hc).trans
      (collectNodesChildren_sublist_slots slots s hs)).trans (List.sublist_append_left _ _)

theorem collectIds_sublist_children : ∀ (cs : List ElemTree) (c : ElemTree), c ∈ cs →
    (collectIds c).Sublist (collectChildren cs)
  | [], c, h => absurd h (List.not_mem_nil c)
  | c2 :: cs, c, h => by
    rw [collectChildren]
    rcases List.mem_cons.mp h with h | h
    · subst h
      exact List.sublist_append_left _ _
    · exact (collectIds_sublist_children cs c h).trans (List.sublist_append_right _ _)

theorem collectChildren_sublist_slots :
    ∀ (sl : List (String × List ElemTree)) (s : String × List ElemTree), s ∈ sl →
    (collectChildren s.2).Sublist (collectSlots sl)
  | [], s, h => absurd h (List.not_mem_nil s)
  | s2 :: sl, s, h => by
    rw [collectSlots]
    rcases List.mem_cons.mp h with h | h
    · subst h
      exact List.sublist_append_left _ _
    · exact (collectChildren_sublist_slots sl s h).trans (List.sublist_append_right _ _)

theorem childrenOf_collectIds_sublist (t c : ElemTree) (h : c ∈ childrenOf t) :
    (collectIds c).Sublist (collectSlots t.slotList) := by
  cases t with
  | node st slots =>
    rw [ElemTree.slotList]
    rw [childrenOf, ElemTree.slotList, List.mem_flatten] at h
    obtain ⟨l, hl, hc⟩ := h
    rw [List.mem_map] at hl
    obtain ⟨s, hs, rfl⟩ := hl
    exact (collectIds_sublist_children s.2 c hc).trans
      (collectChildren_sublist_slots slots s hs)

theorem isSubtree_collectIds_sublist (s t : ElemTree) (h : IsSubtree s t) :
    (collectIds s).Sublist (collectIds t) := by
  induction h with
  | refl => exact List.Sublist.refl _
  | step hc hsub ih =>
    rename_i cc tt
    refine ih.trans ?_
    have h1 := childrenOf_collectIds_sublist tt cc hc
    cases tt with
    | node st slots =>
      rw [collectIds]
      rw [ElemTree.slotList] at h1
      exact h1.trans (List.sublist_append_left _ _)

theorem isSubtree_mem_collectNodes (s t : ElemTree) (h : IsSubtree s t) :
    s ∈ collectNodes t := by
  induction h with
  | refl => exact self_mem_collectNodes s
  | step hc hsub ih =>
    rename_i cc tt
    exact (childrenOf_collectNodes_sublist tt cc hc).subset ih

theorem subtree_child_id_precedes (t s c : ElemTree) (d : Nat)
    (hs : IsSubtree s t) (hc : c ∈ childrenOf s) (hd : d ∈ collectIds c) :
    List.Sublist [d, s.rootId] (collectIds t) := by
  have h1 : List.Sublist [d, s.rootId] (collectIds s) := by
    cases s with
    | node st slots =>
      rw [collectIds]
      have hsub := childrenOf_collectIds_sublist (ElemTree.node st slots) c hc
      rw [ElemTree.slotList] at hsub
      have h2 : List.Sublist [d] (collectSlots slots) :=
        List.singleton_sublist.mpr (hsub.subset hd)
      have h3 := List.Sublist.append h2 (List.Sublist.refl [st.id])
      simpa using h3
  exact h1.trans (isSubtree_collectIds_sublist s t hs)

theorem elementsBatch_map_fst (t : ElemTree) :
    (elementsBatch t).map Prod.fst = collectIds t := by
  rw [elementsBatch, List.map_map]
  exact collectNodes_map_rootId t

theorem elementsBatch_length (t : ElemTree) : (elementsBatch t).length = sizeTree t := by
  rw [elementsBatch, List.length_map]
  exact collectNodes_length t

/-- C4: for an element whose slots form a tree with pairwise distinct ids,
`update()` collects exactly the owned subtree: the dispatched batch's keys are the
post-order collected ids without duplicates, the batch has exactly `sizeTree`
entries (the element plus its N descendants), its entries are exactly the
serializations of the subtree's nodes (so each entry carries that node's slot
child-id lists via `to_dict`), and in the collected order every id found below a
subtree node precedes that node's own id. -/
theorem C4_update_collects_subtree (t : ElemTree) (hnd : (collectIds t).Nodup) :
    (elementsBatch t).map Prod.fst = collectIds t ∧
    ((elementsBatch t).map Prod.fst).Nodup ∧
    (elementsBatch t).length = sizeTree t ∧
    (∀ s : ElemTree, IsSubtree s t → (s.rootId, s.toDict) ∈ elementsBatch t) ∧
    (∀ p ∈ elementsBatch t, ∃ s : ElemTree, IsSubtree s t ∧ p = (s.rootId, s.toDict)) ∧
    (∀ s : ElemTree, IsSubtree s t → ∀ c ∈ childrenOf s, ∀ d ∈ collectIds c,
      List.Sublist [d, s.rootId] (collectIds t)) ∧
    updateFn true t = (t, some (elementsBatch t)) := by
  refine ⟨elementsBatch_map_fst t, ?_, elementsBatch_length t, ?_, ?_, ?_, rfl⟩
  · rw [elementsBatch_map_fst t]
    exact hnd
  · intro s hs
    rw [elementsBatch]
    exact List.mem_map_of_mem _ (isSubtree_mem_collectNodes s t hs)
  · intro p hp
    rw [elementsBatch, List.mem_map] at hp
    obtain ⟨n, hn, rfl⟩ := hp
    exact ⟨n, mem_collectNodes_isSubtree t n hn, rfl⟩
  · intro s hs c hc d hd
    exact subtree_child_id_precedes t s c d hs hc hd

/-- Witness for C4 at a concrete tree: a parent (id 0) with children ids 1 and 2
in its default slot, id 2 itself having a child id 3. -/
theorem C4_update_collects_subtree_witness :
    (elementsBatch (ElemTree.node ⟨0, "row", [], [], [], [], ""⟩
      [("default", [ElemTree.node ⟨1, "label", [], [], [], [], "a"⟩ [],
        ElemTree.node ⟨2, "row", [], [], [], [], ""⟩
          [("default", [ElemTree.node ⟨3, "label", [], [], [], [], "b"⟩ []])]])])).map
      Prod.fst =
      collectIds (ElemTree.node ⟨0, "row", [], [], [], [], ""⟩
        [("default", [ElemTree.node ⟨1, "label", [], [], [], [], "a"⟩ [],
          ElemTree.node ⟨2, "row", [], [], [], [], ""⟩
            [("default", [ElemTree.node ⟨3, "label", [], [], [], [], "b"⟩ []])]])]) ∧
    (elementsBatch (ElemTree.node ⟨0, "row", [], [], [], [], ""⟩
      [("default", [ElemTree.node ⟨1, "label", [], [], [], [], "a"⟩ [],
        ElemTree.node ⟨2, "row", [], [], [], [], ""⟩
          [("default", [ElemTree.node ⟨3, "label", [], [], [], [], "b"⟩ []])]])])).length =
      sizeTree (ElemTree.node ⟨0, "row", [], [], [], [], ""⟩
        [("default", [ElemTree.node ⟨1, "label", [], [], [], [], "a"⟩ [],
          ElemTree.node ⟨2, "row", [], [], [], [], ""⟩
            [("default", [ElemTree.node ⟨3, "label", [], [], [], [], "b"⟩ []])]])]) :=
  ⟨(C4_update_collects_subtree _ (by decide)).1,
   (C4_update_collects_subtree _ (by decide)).2.2.1⟩

/-- C10: calling `update()` with no running event loop is a safe no-op — it
returns without raising, dispatches no batch, and leaves the element tree
unchanged. -/
theorem C10_update_without_loop_noop (t : ElemTree) : updateFn false t = (t, none) := rfl

end NiceGui
